import Mathlib

/-!
Verification development for the Google Chat reverse-engineered client
(`chat_client.py`).  The loosely-typed pblite/protojson wire values are
modelled by the inductive type `PB`; each Python function of the client that
the claims mention is translated into a total Lean function over `PB`,
with Python truthiness, list mutation and `nonlocal` accumulators made
explicit as state passing.  Strings are treated as sequences of code points
(`String.data`), matching Python string semantics for `len`, slicing and
`startswith`.
-/

/-- A pblite / JSON value: the generic value tree produced by `json.loads`
on a protojson response body. -/
inductive PB where
  | null : PB
  | bool (b : Bool) : PB
  | int (n : Int) : PB
  | str (s : String) : PB
  | arr (xs : List PB) : PB

/-! ### Python string primitives (modelled on code points) -/

/-- Python `s.isdigit()` for ASCII data: nonempty and all digits. -/
def pyIsdigit (s : String) : Bool := !s.data.isEmpty && s.data.all Char.isDigit

/-- Numeric value of a digit string, as produced by Python `int(s)`. -/
def digitsToNat (cs : List Char) : Nat := cs.foldl (fun n c => 10 * n + (c.toNat - 48)) 0

/-- Python `s.startswith(pre)`. -/
def pyStartsWith (s pre : String) : Bool := pre.data.isPrefixOf s.data

/-- Python `s.lower()` (code-point-wise lowering). -/
def strLower (s : String) : String := String.mk (s.data.map Char.toLower)

/-- Python `s[:n]` for `n ≥ 0`. -/
def strTake (s : String) (n : Nat) : String := String.mk (s.data.take n)

/-- Python `s[:-1]`: drop the final code point. -/
def strDropLastChar (s : String) : String := String.mk (s.data.dropLast)

/-- Contiguous-sublist test on code points (helper for Python `in`). -/
def isSubListOf (needle : List Char) (hay : List Char) : Bool :=
  match hay with
  | [] => needle.isEmpty
  | c :: rest => needle.isPrefixOf (c :: rest) || isSubListOf needle rest

/-- Python `needle in hay` (substring containment). -/
def strContains (hay needle : String) : Bool := isSubListOf needle.data hay.data

/-- Python truthiness of an optional string (`None` and `""` are falsy). -/
def strTruthy (o : Option String) : Bool :=
  match o with
  | some s => !s.data.isEmpty
  | none => false

/-- Python `a or b` on optional strings. -/
def pyOrStr (a b : Option String) : Option String := if strTruthy a then a else b

/-! ### Space extraction from pblite responses
(`_extract_spaces_from_pblite`, chat_client.py lines 574-637) -/

/-- Space ID pattern from `find_spaces`: 11 chars starting with `"AAAA"`. -/
def isSpaceIdStr (s : String) : Bool := s.length == 11 && pyStartsWith s "AAAA"

/-- DM ID pattern from `find_spaces`: 21-digit string. -/
def isDmIdStr (s : String) : Bool := s.length == 21 && pyIsdigit s

/-- Room-name heuristic from `find_spaces`:
`3 < len(sub) < 100 and not sub.isdigit() and not sub.startswith("http")`. -/
def isRoomNameStr (s : String) : Bool :=
  decide (3 < s.length) && decide (s.length < 100) && !pyIsdigit s && !pyStartsWith s "http"

/-- A `{"id": ..., "name": ..., "type": ...}` space dict. -/
structure SpaceRec where
  id : String
  name : Option String
  type : String
deriving DecidableEq

/-- The per-item scan variables of `find_spaces`:
`space_id`, `space_name`, `space_type` (initially `"unknown"`). -/
structure ScanAcc where
  space_id : Option String
  space_name : Option String
  space_type : String
deriving DecidableEq

def initScanAcc : ScanAcc := ⟨none, none, "unknown"⟩

/-- `find_spaces` handling of a top-level string element `sub` of an item. -/
def scanString (acc : ScanAcc) (s : String) : ScanAcc :=
  if isSpaceIdStr s then { acc with space_id := some s, space_type := "space" }
  else if isDmIdStr s then { acc with space_id := some s, space_type := "dm" }
  else if isRoomNameStr s && acc.space_name.isNone then { acc with space_name := some s }
  else acc

/-- `find_spaces` handling of a `deep` element (third nesting level inside an
item): only the space-id pattern is checked there. -/
def scanDeep (acc : ScanAcc) (deep : PB) : ScanAcc :=
  match deep with
  | .str s => if isSpaceIdStr s then { acc with space_id := some s, space_type := "space" } else acc
  | _ => acc

/-- `find_spaces` handling of a `nested` element (second nesting level inside
an item): space and DM id patterns, plus one more level of lists. -/
def scanNested (acc : ScanAcc) (nested : PB) : ScanAcc :=
  match nested with
  | .str s =>
      if isSpaceIdStr s then { acc with space_id := some s, space_type := "space" }
      else if isDmIdStr s then { acc with space_id := some s, space_type := "dm" }
      else acc
  | .arr deeps => deeps.foldl scanDeep acc
  | _ => acc

/-- `find_spaces` handling of one element `sub` of an item. -/
def scanSub (acc : ScanAcc) (sub : PB) : ScanAcc :=
  match sub with
  | .str s => scanString acc s
  | .arr nesteds => nesteds.foldl scanNested acc
  | _ => acc

/-- The `for sub in item` scan of `find_spaces` over one list item. -/
def scanItem (ys : List PB) : ScanAcc := ys.foldl scanSub initScanAcc

/-- The mutable state of `_extract_spaces_from_pblite`: the `spaces` output
list and the `seen_ids` set (modelled as a list). -/
structure ExtractState where
  spaces : List SpaceRec
  seen : List String
deriving DecidableEq

/-- The `if space_id and space_id not in seen_ids` record step of
`find_spaces`. -/
def recordSpace (acc : ScanAcc) (st : ExtractState) : ExtractState :=
  match acc.space_id with
  | some sid =>
      if sid ∈ st.seen then st
      else { spaces := st.spaces ++ [⟨sid, acc.space_name, acc.space_type⟩], seen := sid :: st.seen }
  | none => st

mutual

/-- The recursive `find_spaces(arr, depth)` closure of
`_extract_spaces_from_pblite`: returns immediately when `depth > 25` or the
argument is not a list; otherwise iterates over the list elements. -/
def find_spaces (p : PB) (depth : Nat) (st : ExtractState) : ExtractState :=
  match p with
  | .arr items => if depth > 25 then st else find_spaces_items items depth st
  | _ => st

/-- The `for item in arr` loop of `find_spaces`: each list item is scanned,
recorded, and then recursed into with `depth + 1`. -/
def find_spaces_items (items : List PB) (depth : Nat) (st : ExtractState) : ExtractState :=
  match items with
  | [] => st
  | item :: rest =>
      match item with
      | .arr ys =>
          find_spaces_items rest depth
            (find_spaces (.arr ys) (depth + 1) (recordSpace (scanItem ys) st))
      | _ => find_spaces_items rest depth st

end

/-- `_extract_spaces_from_pblite(data, spaces, seen_ids)`. -/
def extract_spaces_from_pblite (data : PB) (spaces : List SpaceRec) (seen_ids : List String) :
    ExtractState :=
  find_spaces data 0 ⟨spaces, seen_ids⟩

/-! ### Occurrence predicates on pblite trees -/

/-- `StrAt s p d`: the string leaf `s` occurs in the tree `p` at nesting
depth `d` (the root itself is depth 0, elements of the root list depth 1). -/
inductive StrAt : String → PB → Nat → Prop where
  | here (s : String) : StrAt s (.str s) 0
  | there {s : String} {x : PB} {xs : List PB} {d : Nat}
      (hx : x ∈ xs) (h : StrAt s x d) : StrAt s (.arr xs) (d + 1)

/-- `ArrAt ys p d`: the array node `ys` occurs in the tree `p` at nesting
depth `d`. -/
inductive ArrAt : List PB → PB → Nat → Prop where
  | here (ys : List PB) : ArrAt ys (.arr ys) 0
  | there {ys : List PB} {x : PB} {xs : List PB} {d : Nat}
      (hx : x ∈ xs) (h : ArrAt ys x d) : ArrAt ys (.arr xs) (d + 1)

/-- A string matching either identifier heuristic of `find_spaces`. -/
def isIdCandidate (s : String) : Bool := isSpaceIdStr s || isDmIdStr s

/-! ### Paginated topic/message parsing
(`_parse_topics_with_threads`, chat_client.py lines 827-1025) -/

/-- A message dict as built by `try_parse_message` (the formatted
`timestamp` string is omitted; only the raw `timestamp_usec` is kept). -/
structure Message where
  message_id : Option String
  topic_id : Option String
  space_id : String
  text : String
  timestamp_usec : Option Int
  sender : Option PB
  is_thread_reply : Bool
  reply_index : Nat

/-- A topic dict as appended by `extract_topic_and_messages`. -/
structure TopicRec where
  topic_id : String
  space_id : String
  timestamp : Option Int
  message_count : Nat
  replies : List Message

/-- Timestamp-slot extraction shared by `try_parse_message` and
`extract_topic_and_messages`: a digit string is converted with `int(...)`,
an int (including Python bools, which are ints) is taken as is. -/
def pbAsIntField (x : PB) : Option Int :=
  match x with
  | .str s => if pyIsdigit s then some ((digitsToNat s.data : Nat) : Int) else none
  | .int n => some n
  | .bool b => some (if b then 1 else 0)
  | _ => none

/-- The `timestamp_usec` component of the inner `parse_timestamp`: falsy
input (absent or zero) gives `None`; any other int is returned unchanged. -/
def parse_ts_usec (ts : Option Int) : Option Int :=
  match ts with
  | none => none
  | some t => if t = 0 then none else some t

/-- `try_parse_message(arr, topic_id)`: needs a list of ≥ 10 elements, text
at index 9 (nonempty, or the message is discarded), timestamp at index 2,
message id at `arr[0][1]`, sender at `arr[1][0][0]`. -/
def try_parse_message (space_id : String) (arr : PB) (topic_id : Option String) :
    Option Message :=
  match arr with
  | .arr xs =>
    if xs.length < 10 then none
    else
      let msg_text : Option String :=
        match xs.get? 9 with
        | some (.str s) => some s
        | _ => none
      let msg_timestamp : Option Int :=
        match xs.get? 2 with
        | some x => pbAsIntField x
        | none => none
      let msg_id : Option String :=
        match xs.get? 0 with
        | some (.arr h) =>
            match h.get? 1 with
            | some (.str s) => some s
            | _ => none
        | _ => none
      let msg_sender : Option PB :=
        match xs.get? 1 with
        | some (.arr h) =>
            match h.get? 0 with
            | some (.arr h2) => h2.get? 0
            | _ => none
        | _ => none
      match msg_text with
      | some txt =>
          if txt.data.isEmpty then none
          else some
            { message_id := msg_id
              topic_id := topic_id
              space_id := space_id
              text := txt
              timestamp_usec := parse_ts_usec msg_timestamp
              sender := msg_sender
              is_thread_reply := false
              reply_index := 0 }
      | none => none
  | _ => none

/-- The sort key `m.get("timestamp_usec") or 0`. -/
def msgKey (m : Message) : Int := m.timestamp_usec.getD 0

/-- Stable ascending insertion (element placed before the first strictly
greater key), giving Python `sorted(..., key=...)` semantics. -/
def insertAscBy (key : Message → Int) (x : Message) : List Message → List Message
  | [] => [x]
  | y :: ys => if key y < key x then y :: insertAscBy key x ys else x :: y :: ys

/-- Python `sorted(l, key=key)` (stable, ascending). -/
def sortAscBy (key : Message → Int) (l : List Message) : List Message :=
  l.foldr (insertAscBy key) []

/-- Stable descending insertion. -/
def insertDescBy (key : Message → Int) (x : Message) : List Message → List Message
  | [] => [x]
  | y :: ys => if key x < key y then y :: insertDescBy key x ys else x :: y :: ys

/-- Python `l.sort(key=key, reverse=True)` (stable, descending). -/
def sortDescBy (key : Message → Int) (l : List Message) : List Message :=
  l.foldr (insertDescBy key) []

/-- The `for i, msg in enumerate(sorted_msgs)` labeling loop: index 0 is the
thread root, later indices are replies with `reply_index` = position. -/
def labelRepliesAux (i : Nat) : List Message → List Message
  | [] => []
  | m :: ms =>
      { m with is_thread_reply := decide (0 < i), reply_index := i } :: labelRepliesAux (i + 1) ms

def labelReplies (msgs : List Message) : List Message := labelRepliesAux 0 msgs

/-- Generic first-wins dedup keyed through a `seen` set, as in the
`seen_texts` / `seen` loops of the client. -/
def dedupByKey (key : Message → String) : List Message → List String → List Message
  | [], _ => []
  | m :: rest, seen =>
      if key m ∈ seen then dedupByKey key rest seen
      else m :: dedupByKey key rest (key m :: seen)

/-- Within-page dedup key: `msg.get("text", "")[:100]`. -/
def pageKey (m : Message) : String := strTake m.text 100

/-- Cross-page dedup key: `msg.get("message_id") or msg.get("text", "")[:50]`. -/
def crossKey (m : Message) : String :=
  match m.message_id with
  | some mid => if mid.data.isEmpty then strTake m.text 50 else mid
  | none => strTake m.text 50

/-- The `nonlocal` state of `_parse_topics_with_threads`: the `topics` and
`messages` accumulators and `oldest_timestamp`. -/
structure ParseState where
  topics : List TopicRec
  messages : List Message
  oldest : Option Int

/-- The `if ts: if oldest_timestamp is None or ts < oldest_timestamp`
update. -/
def updateOldest (o : Option Int) (m : Message) : Option Int :=
  match m.timestamp_usec with
  | some t =>
      if t = 0 then o
      else
        match o with
        | none => some t
        | some v => if t < v then some t else some v
  | none => o

/-- Topic-id extraction of `extract_topic_and_messages`: `arr[0][1]` when
`arr[0]` is a list holding a string at index 1. -/
def topic_id_of (xs : List PB) : Option String :=
  match xs.get? 0 with
  | some (.arr h) =>
      match h.get? 1 with
      | some (.str s) => some s
      | _ => none
  | _ => none

/-- Topic-timestamp extraction of `extract_topic_and_messages`: `arr[1]`. -/
def topic_timestamp_of (xs : List PB) : Option Int :=
  match xs.get? 1 with
  | some x => pbAsIntField x
  | none => none

/-- The known-slot message extraction of `extract_topic_and_messages`:
parse each element of `arr[6]` as a message. -/
def from_six (space_id : String) (xs : List PB) (eff : Option String) : List Message :=
  match xs.get? 6 with
  | some (.arr ms) => ms.filterMap (fun m => try_parse_message space_id m eff)
  | _ => []

/-- The `if topic_id and topic_messages` record step of
`extract_topic_and_messages`: update the oldest timestamp, sort the topic's
messages ascending, label root/replies, and append the topic. -/
def topic_record_step (space_id : String) (topic_id : Option String)
    (topic_timestamp : Option Int) (topic_messages : List Message) (st1 : ParseState) :
    ParseState :=
  match topic_id with
  | some tid =>
      if !tid.data.isEmpty && !topic_messages.isEmpty then
        let oldest := topic_messages.foldl updateOldest st1.oldest
        let sorted_msgs := labelReplies (sortAscBy msgKey topic_messages)
        { topics :=
            st1.topics ++
              [⟨tid, space_id, topic_timestamp, sorted_msgs.length, sorted_msgs⟩]
          messages := st1.messages ++ sorted_msgs
          oldest := oldest }
      else st1
  | none => st1

mutual

/-- `extract_topic_and_messages(arr, depth, parent_topic_id)`: topic id from
`arr[0][1]`, timestamp from `arr[1]`, messages from the known slot `arr[6]`,
with a recursive fallback scan when that slot yields nothing; a topic is
recorded only when its own (truthy) topic id was extracted and at least one
message was found. -/
def extract_topic_and_messages (space_id : String) (p : PB) (depth : Nat)
    (parent_topic_id : Option String) (st : ParseState) : ParseState :=
  match p with
  | .arr xs =>
    if depth > 30 then st
    else
      let topic_id := topic_id_of xs
      let eff := pyOrStr topic_id parent_topic_id
      let fromSix := from_six space_id xs eff
      let pr :=
        if fromSix.isEmpty then fallback_scan space_id xs depth eff [] st
        else (fromSix, st)
      topic_record_step space_id topic_id (topic_timestamp_of xs) pr.1 pr.2
  | _ => st

/-- The fallback `for idx, item in enumerate(arr)` loop of
`extract_topic_and_messages`: each list item is either parsed as a message
or recursed into with `depth + 1`. -/
def fallback_scan (space_id : String) (items : List PB) (depth : Nat)
    (eff : Option String) (acc : List Message) (st : ParseState) :
    List Message × ParseState :=
  match items with
  | [] => (acc, st)
  | item :: rest =>
      match item with
      | .arr ys =>
          match try_parse_message space_id (.arr ys) eff with
          | some m => fallback_scan space_id rest depth eff (acc ++ [m]) st
          | none =>
              fallback_scan space_id rest depth eff acc
                (extract_topic_and_messages space_id (.arr ys) (depth + 1) eff st)
      | _ => fallback_scan space_id rest depth eff acc st

end

/-- `contains_last_topic`: index 4 of the response being literally `True`. -/
def contains_last_topic (data : PB) : Bool :=
  match data with
  | .arr xs =>
      match xs.get? 4 with
      | some (.bool true) => true
      | _ => false
  | _ => false

/-- The result dict of `_parse_topics_with_threads`. -/
structure ParseResult where
  messages : List Message
  topics : List TopicRec
  has_more : Bool
  next_cursor : Option Int
  total_topics : Nat
  total_messages : Nat

/-- The accumulation phase of `_parse_topics_with_threads(data, space_id)`:
walk `data[0][1]` when it is a nonempty list (else fall back to the whole
structure). -/
def parse_topics_state (data : PB) (space_id : String) : ParseState :=
  let topics_array : Option (List PB) :=
    match data with
    | .arr (d0 :: _) =>
        match d0 with
        | .arr xs0 =>
            match xs0.get? 1 with
            | some (.arr ta) => some ta
            | _ => none
        | _ => none
    | _ => none
  match topics_array with
  | some ta =>
      if ta.isEmpty then extract_topic_and_messages space_id data 0 none ⟨[], [], none⟩
      else ta.foldl (fun s td => extract_topic_and_messages space_id td 0 none s) ⟨[], [], none⟩
  | none => extract_topic_and_messages space_id data 0 none ⟨[], [], none⟩

/-- `_parse_topics_with_threads(data, space_id)`: accumulate topics and
messages, sort the flat message list descending by timestamp, dedup by
100-char text prefix, and compute `has_more` from the topic count, the
`contains_last_topic` flag and the oldest observed timestamp. -/
def parse_topics_with_threads (data : PB) (space_id : String) : ParseResult :=
  let st : ParseState := parse_topics_state data space_id
  let sorted := sortDescBy msgKey st.messages
  let unique_messages := dedupByKey pageKey sorted []
  let has_more := !st.topics.isEmpty && !contains_last_topic data && st.oldest.isSome
  { messages := unique_messages
    topics := st.topics
    has_more := has_more
    next_cursor := st.oldest
    total_topics := st.topics.length
    total_messages := unique_messages.length }

/-! ### Multi-page fetching (`get_all_messages`, chat_client.py 1027-1073) -/

/-- One `get_messages_paginated` result, as consumed by `get_all_messages`. -/
structure PageResult where
  messages : List Message
  has_more : Bool
  next_cursor : Option Int

/-- Python falsiness of the `next_cursor` value (`None` or `0`). -/
def falsyCursor (c : Option Int) : Bool :=
  match c with
  | none => true
  | some t => t == 0

/-- The `for page_num in range(max_pages)` loop of `get_all_messages`,
returning the sequence of page results actually fetched; the backend is an
arbitrary function of the call index and the cursor passed. -/
def get_all_messages_trace (backend : Nat → Option Int → PageResult) (cursor : Option Int)
    (page_num : Nat) (remaining : Nat) : List PageResult :=
  match remaining with
  | 0 => []
  | r + 1 =>
      let result := backend page_num cursor
      if !result.has_more || falsyCursor result.next_cursor then [result]
      else result :: get_all_messages_trace backend result.next_cursor (page_num + 1) r

/-- `get_all_messages(space_id, max_pages, ...)`: concatenate the fetched
pages' messages and dedup by message id or 50-char text prefix. -/
def get_all_messages (backend : Nat → Option Int → PageResult) (max_pages : Nat) :
    List Message :=
  let all := ((get_all_messages_trace backend none 0 max_pages).map PageResult.messages).flatten
  dedupByKey crossKey all []

/-! ### Auth cache (`_load_auth_cache` / `refresh_tokens`,
chat_client.py 112-126 and 189-202) -/

/-- The cached auth blob (`xsrf_token`, `mole_world_body`, `cached_at`);
wall-clock values are modelled as rationals (seconds). -/
structure AuthCache where
  xsrf_token : String
  mole_world_body : String
  cached_at : ℚ

/-- `_load_auth_cache()`: the cache is valid when the token and timestamp
are truthy and the age in hours is under 24. -/
def load_auth_cache (cache : Option AuthCache) (now : ℚ) : Option AuthCache :=
  match cache with
  | some data =>
      if data.xsrf_token.data ≠ [] ∧ data.cached_at ≠ 0 then
        if (now - data.cached_at) / 3600 < 24 then some data else none
      else none
  | none => none

/-- Whether `refresh_tokens` served the token from the cache or performed
the `/mole/world` network bootstrap. -/
inductive RefreshOutcome where
  | fromCache (xsrf_token : String) (mole_world_body : String) : RefreshOutcome
  | fromNetwork : RefreshOutcome
deriving DecidableEq

/-- `refresh_tokens(force_refresh)` up to the point where the network is
touched: a valid cached token short-circuits the bootstrap call. -/
def refresh_tokens (force_refresh : Bool) (cache : Option AuthCache) (now : ℚ) :
    RefreshOutcome :=
  if !force_refresh then
    match load_auth_cache cache now with
    | some c => .fromCache c.xsrf_token c.mole_world_body
    | none => .fromNetwork
  else .fromNetwork

/-! ### Compact JSON serialization and the batch RPC encoder
(`_execute_search_rpc`, chat_client.py 1144-1204) -/

/-- Lowercase hex digit. -/
def hexDigitChar (n : Nat) : Char :=
  if n < 10 then Char.ofNat (48 + n) else Char.ofNat (87 + n)

/-- Four-digit lowercase hex rendering used by `\uXXXX` escapes. -/
def hex4 (n : Nat) : List Char :=
  [n / 4096, n / 256, n / 16, n].map (fun k => hexDigitChar (k % 16))

/-- `json.dumps` escaping of one character (default `ensure_ascii=True`):
quote and backslash get a backslash prefix, the usual control shorthands
apply, every other control or non-ASCII code point becomes `\uXXXX`
(as a surrogate pair beyond the basic plane). -/
def jsonEscapeChar (c : Char) : List Char :=
  let n := c.toNat
  if n = 34 ∨ n = 92 then ['\\', c]
  else if n = 10 then ['\\', 'n']
  else if n = 9 then ['\\', 't']
  else if n = 13 then ['\\', 'r']
  else if n = 8 then ['\\', 'b']
  else if n = 12 then ['\\', 'f']
  else if n < 32 ∨ n > 126 then
    if n < 65536 then '\\' :: 'u' :: hex4 n
    else
      ('\\' :: 'u' :: hex4 (55296 + (n - 65536) / 1024)) ++
        ('\\' :: 'u' :: hex4 (56320 + (n - 65536) % 1024))
  else [c]

mutual

/-- Compact (`separators=(",", ":")`) `json.dumps` rendering of a value. -/
def jsonSer : PB → List Char
  | .null => ("null").data
  | .bool b => (if b then "true" else "false").data
  | .int n => (toString n).data
  | .str s => '"' :: (s.data.map jsonEscapeChar).flatten ++ ['"']
  | .arr xs => '[' :: jsonSerList xs ++ [']']

/-- Comma-separated rendering of array elements. -/
def jsonSerList : List PB → List Char
  | [] => []
  | [x] => jsonSer x
  | x :: y :: rest => jsonSer x ++ ',' :: jsonSerList (y :: rest)

end

/-- `json.dumps(p, separators=(",", ":"))`. -/
def json_dumps_compact (p : PB) : String := String.mk (jsonSer p)

/-- The fixed `nested_flags` value `[[[[[[1]]]]],[[[1]]]]`. -/
def nested_flags : PB :=
  .arr [.arr [.arr [.arr [.arr [.arr [.int 1]]]]],
        .arr [.arr [.arr [.int 1]]]]

/-- `search_config`: position 0 holds the space filter (set to
`[[space_id]]` only for a truthy space id), position 4 the session UUID,
position 7 the nested flags. -/
def search_config (search_uuid : String) (space_id : Option String) : PB :=
  .arr [(match space_id with
         | some sid => if sid.data.isEmpty then .arr [] else .arr [.arr [.str sid]]
         | none => .arr []),
        .null, .null, .null, .str search_uuid, .null, .int 0, nested_flags]

/-- `search_params`: query at index 3, UUID at index 5, config block at
index 6. -/
def search_params (query search_uuid : String) (space_id : Option String) (limit : Int) : PB :=
  .arr [.null, .null, .null, .str query, .null, .str search_uuid,
        .arr [search_config search_uuid space_id, .null, .arr [.int 3], .arr [.int limit]]]

/-- The `rpc_data` built by `_execute_search_rpc`: serialize the params
compactly, drop the final character, and wrap in the
`[[["SBNmJb", ..., null, "4"]]]` envelope. -/
def encode_search_rpc (query search_uuid : String) (space_id : Option String) (limit : Int) :
    String :=
  let inner_params := json_dumps_compact (search_params query search_uuid space_id limit)
  let inner_params_truncated := strDropLastChar inner_params
  json_dumps_compact
    (.arr [.arr [.arr [.str "SBNmJb", .str inner_params_truncated, .null, .str "4"]]])

/-! ### Server-side search result extraction
(`_extract_search_results` / `_parse_batchexecute_response` / `server_search`,
chat_client.py 1111-1351) -/

/-- A search result dict (`text`, `snippet`, `source`). -/
structure SearchHit where
  text : String
  snippet : String
  source : String
deriving DecidableEq

/-- First index of `needle` in `hay` (code points), if any. -/
def listFind (needle : List Char) (hay : List Char) : Option Nat :=
  match hay with
  | [] => if needle.isEmpty then some 0 else none
  | c :: rest =>
      if needle.isPrefixOf (c :: rest) then some 0
      else (listFind needle rest).map (· + 1)

/-- Python `hay.find(needle)` (−1 when absent). -/
def pyFind (hay needle : String) : Int :=
  match listFind needle.data hay.data with
  | some i => (i : Int)
  | none => -1

/-- Python `s[a:b]` for clamped nonneg bounds. -/
def pySlice (s : String) (a b : Int) : String :=
  String.mk ((s.data.drop a.toNat).take (b - a).toNat)

/-- The matching condition of `_extract_search_results`:
`len(item) > 10 and query_lower in item.lower()`. -/
def matchesQuery (item query : String) : Bool :=
  decide (item.length > 10) && strContains (strLower item) (strLower query)

/-- The result entry built for a matching string: the full text plus a
`"..."`-bracketed snippet of ±50 characters around the first match. -/
def make_search_hit (item query : String) : SearchHit :=
  let idx := pyFind (strLower item) (strLower query)
  let start : Int := max 0 (idx - 50)
  let stop : Int := min (item.length : Int) (idx + (query.length : Int) + 50)
  { text := item
    snippet := "..." ++ pySlice item start stop ++ "..."
    source := "server_search" }

mutual

/-- `_extract_search_results(data, query, depth)`: bounded recursive scan
collecting matching string leaves. -/
def extract_search_results (data : PB) (query : String) (depth : Nat) : List SearchHit :=
  match data with
  | .arr items => if depth > 15 then [] else extract_search_results_items items query depth
  | _ => []

/-- The `for item in data` loop of `_extract_search_results`. -/
def extract_search_results_items (items : List PB) (query : String) (depth : Nat) :
    List SearchHit :=
  match items with
  | [] => []
  | item :: rest =>
      match item with
      | .str s =>
          (if matchesQuery s query then [make_search_hit s query] else []) ++
            extract_search_results_items rest query depth
      | .arr ys =>
          extract_search_results (.arr ys) query (depth + 1) ++
            extract_search_results_items rest query depth
      | _ => extract_search_results_items rest query depth

end

/-- `_parse_batchexecute_response` after line splitting: each successfully
parsed JSON array fragment is fed independently to the extractor and the
results concatenated. -/
def parse_batchexecute_fragments (frags : List PB) (query : String) : List SearchHit :=
  (frags.map (fun f => extract_search_results f query 0)).flatten

/-- The observable network outcome of the batch RPC POST: a transport
exception, or an HTTP status together with the parsed JSON array fragments
of the body. -/
inductive RpcNet where
  | exn : RpcNet
  | resp (status : Nat) (fragments : List PB) : RpcNet

/-- `_execute_search_rpc`: `None` on non-200 status, on a transport
exception, or on an empty extraction; otherwise the first `limit` results. -/
def execute_search_rpc (net : RpcNet) (query : String) (limit : Nat) :
    Option (List SearchHit) :=
  match net with
  | .exn => none
  | .resp status frags =>
      if status ≠ 200 then none
      else
        let results := parse_batchexecute_fragments frags query
        if results.isEmpty then none else some (results.take limit)

/-- `server_search`: use the RPC result when available, else fall back to
the local all-spaces search (whose result is a parameter here). -/
def server_search (net : RpcNet) (query : String) (limit : Nat)
    (local_results : List SearchHit) : List SearchHit :=
  match execute_search_rpc net query limit with
  | some r => r
  | none => local_results

/-! ## General lemmas -/

theorem strTruthy_some_ne_none {o : Option String} (h : strTruthy o = true) : o ≠ none := by
  cases o with
  | none => simp [strTruthy] at h
  | some s => simp

/-! ## C2: pagination is bounded and stops on the first terminal page -/

theorem trace_length_le (backend : Nat → Option Int → PageResult) :
    ∀ (remaining : Nat) (cursor : Option Int) (page_num : Nat),
      (get_all_messages_trace backend cursor page_num remaining).length ≤ remaining := by
  intro remaining
  induction remaining with
  | zero => intro cursor page_num; simp [get_all_messages_trace]
  | succ r ih =>
      intro cursor page_num
      simp only [get_all_messages_trace]
      split
      · simp
      · simpa using ih _ _

theorem trace_continues (backend : Nat → Option Int → PageResult) :
    ∀ (remaining : Nat) (cursor : Option Int) (page_num : Nat) (i : Nat) (pr : PageResult),
      (get_all_messages_trace backend cursor page_num remaining).get? i = some pr →
      i + 1 < (get_all_messages_trace backend cursor page_num remaining).length →
      pr.has_more = true ∧ falsyCursor pr.next_cursor = false := by
  intro remaining
  induction remaining with
  | zero =>
      intro cursor page_num i pr hget hlen
      simp [get_all_messages_trace] at hget
  | succ r ih =>
      intro cursor page_num i pr hget hlen
      simp only [get_all_messages_trace] at hget hlen
      by_cases hcond :
          (!(backend page_num cursor).has_more ||
            falsyCursor (backend page_num cursor).next_cursor) = true
      · rw [if_pos hcond] at hget hlen
        simp only [List.length_singleton] at hlen
        omega
      · rw [if_neg hcond] at hget hlen
        cases i with
        | zero =>
            simp only [List.get?] at hget
            cases hget
            constructor
            · cases hb : (backend page_num cursor).has_more
              · exfalso; rw [hb] at hcond; simp at hcond
              · rfl
            · cases hf : falsyCursor (backend page_num cursor).next_cursor
              · rfl
              · exfalso; rw [hf] at hcond; simp at hcond
        | succ j =>
            simp only [List.get?] at hget
            simp only [List.length_cons, Nat.add_lt_add_iff_right] at hlen
            exact ih _ _ j pr hget hlen

/-- C2: for every backend page-result sequence, `get_all_messages` makes at
most `max_pages` calls to `get_messages_paginated` (the fetched trace has at
most `max_pages` entries), and every call except possibly the last one was
made only because the previous page reported `has_more` and a truthy
`next_cursor` — so the loop stops as soon as a page reports `has_more` false
or a null cursor. -/
theorem claim_C2 (backend : Nat → Option Int → PageResult) (max_pages : Nat) :
    (get_all_messages_trace backend none 0 max_pages).length ≤ max_pages ∧
    ∀ (i : Nat) (pr : PageResult),
      (get_all_messages_trace backend none 0 max_pages).get? i = some pr →
      i + 1 < (get_all_messages_trace backend none 0 max_pages).length →
      pr.has_more = true ∧ falsyCursor pr.next_cursor = false :=
  ⟨trace_length_le backend max_pages none 0,
   fun i pr hget hlen => trace_continues backend max_pages none 0 i pr hget hlen⟩

/-- Witness for C2 at a backend that always reports more pages with a
repeated nonzero cursor: exactly `max_pages = 2` calls occur and the first
page satisfied the continuation condition. -/
theorem claim_C2_witness :
    (get_all_messages_trace (fun _ _ => ⟨[], true, some 1⟩) none 0 2).length ≤ 2 ∧
    PageResult.has_more ⟨[], true, some 1⟩ = true := by
  refine ⟨(claim_C2 (fun _ _ => ⟨[], true, some 1⟩) 2).1, ?_⟩
  exact ((claim_C2 (fun _ _ => ⟨[], true, some 1⟩) 2).2 0 ⟨[], true, some 1⟩ rfl
    (by decide)).1

/-! ## C4: the `has_more` flag of the paginated parser -/

/-- C4: `has_more` is true exactly when at least one topic was assembled,
the response does not carry the `contains_last_topic` signal (index 4 being
literally `True`), and an oldest observed timestamp (the next cursor)
exists; in particular `has_more` is never true with a null `next_cursor`. -/
theorem claim_C4 (data : PB) (space_id : String) :
    ((parse_topics_with_threads data space_id).has_more = true ↔
      ((parse_topics_with_threads data space_id).topics ≠ [] ∧
        contains_last_topic data = false ∧
        (parse_topics_with_threads data space_id).next_cursor ≠ none)) ∧
    ((parse_topics_with_threads data space_id).next_cursor = none →
      (parse_topics_with_threads data space_id).has_more = false) := by
  have hm : (parse_topics_with_threads data space_id).has_more =
      (!(parse_topics_with_threads data space_id).topics.isEmpty &&
        !contains_last_topic data &&
        (parse_topics_with_threads data space_id).next_cursor.isSome) := rfl
  constructor
  · rw [hm]
    simp only [Bool.and_eq_true, Bool.not_eq_true']
    constructor
    · rintro ⟨⟨h1, h2⟩, h3⟩
      refine ⟨?_, h2, ?_⟩
      · intro hnil
        rw [hnil] at h1
        simp at h1
      · intro hnone
        rw [hnone] at h3
        simp at h3
    · rintro ⟨h1, h2, h3⟩
      refine ⟨⟨?_, h2⟩, ?_⟩
      · cases hl : (parse_topics_with_threads data space_id).topics with
        | nil => exact absurd hl h1
        | cons a l => rfl
      · cases hc : (parse_topics_with_threads data space_id).next_cursor with
        | none => exact absurd hc h3
        | some v => rfl
  · intro hnone
    rw [hm, hnone]
    simp

/-- Witness for C4 on the empty response: a null cursor forces `has_more`
to be false. -/
theorem claim_C4_witness :
    (parse_topics_with_threads PB.null "S").next_cursor = none →
    (parse_topics_with_threads PB.null "S").has_more = false :=
  (claim_C4 PB.null "S").2

/-! ## C6: the 24-hour auth cache short-circuits the bootstrap call -/

/-- C6: with `force_refresh` off and a valid cached token younger than 24
hours, `refresh_tokens` returns the cached token without the network
bootstrap; with the cached token aged 24 hours or more, or absent, it always
performs the bootstrap call. -/
theorem claim_C6 (cache : Option AuthCache) (now : ℚ) :
    (∀ c : AuthCache, cache = some c → c.xsrf_token.data ≠ [] → c.cached_at ≠ 0 →
      (now - c.cached_at) / 3600 < 24 →
      refresh_tokens false cache now = .fromCache c.xsrf_token c.mole_world_body) ∧
    (∀ force_refresh : Bool,
      (cache = none ∨ ∃ c : AuthCache, cache = some c ∧ 24 ≤ (now - c.cached_at) / 3600) →
      refresh_tokens force_refresh cache now = .fromNetwork) := by
  constructor
  · intro c hc htok hts hage
    subst hc
    simp only [refresh_tokens, load_auth_cache, Bool.not_false, if_true]
    rw [if_pos ⟨htok, hts⟩, if_pos hage]
  · intro force_refresh hstale
    cases force_refresh with
    | true => rfl
    | false =>
        simp only [refresh_tokens, Bool.not_false, if_true]
        rcases hstale with hnone | ⟨c, hc, hage⟩
        · rw [hnone]; rfl
        · subst hc
          simp only [load_auth_cache]
          by_cases hval : c.xsrf_token.data ≠ [] ∧ c.cached_at ≠ 0
          · rw [if_pos hval, if_neg (by exact not_lt.mpr hage)]
          · rw [if_neg hval]

/-- Witness for C6: a fresh token (1000 seconds old) is served from the
cache, and a token exactly 24 hours old forces the bootstrap call. -/
theorem claim_C6_witness :
    refresh_tokens false (some ⟨"tok", "body", 1000⟩) 2000 =
      RefreshOutcome.fromCache "tok" "body" ∧
    refresh_tokens false (some ⟨"tok", "body", 1000⟩) 87400 =
      RefreshOutcome.fromNetwork := by
  constructor
  · exact (claim_C6 (some ⟨"tok", "body", 1000⟩) 2000).1 ⟨"tok", "body", 1000⟩ rfl
      (by decide) (by norm_num) (by norm_num)
  · exact (claim_C6 (some ⟨"tok", "body", 1000⟩) 87400).2 false
      (Or.inr ⟨⟨"tok", "body", 1000⟩, rfl, by norm_num⟩)

/-! ## C9: server search failure falls back to local search -/

theorem server_search_eq_match (net : RpcNet) (query : String) (limit : Nat)
    (local_results : List SearchHit) :
    server_search net query limit local_results =
      match execute_search_rpc net query limit with
      | some r => r
      | none => local_results := rfl

/-- C9: whenever the search RPC fails (transport exception, non-200 status)
or extracts an empty result set, `server_search` returns the local search
results — the failure never propagates. -/
theorem claim_C9 (net : RpcNet) (query : String) (limit : Nat)
    (local_results : List SearchHit)
    (hfail : net = .exn ∨ (∃ status frags, net = .resp status frags ∧ status ≠ 200) ∨
      (∃ status frags, net = .resp status frags ∧
        parse_batchexecute_fragments frags query = [])) :
    server_search net query limit local_results = local_results := by
  rcases hfail with hexn | ⟨status, frags, hresp, hstatus⟩ | ⟨status, frags, hresp, hempty⟩
  · subst hexn; rfl
  · subst hresp
    rw [server_search_eq_match]
    have hexec : execute_search_rpc (RpcNet.resp status frags) query limit = none := by
      simp only [execute_search_rpc, if_pos hstatus]
    rw [hexec]
  · subst hresp
    rw [server_search_eq_match]
    have hexec : execute_search_rpc (RpcNet.resp status frags) query limit = none := by
      simp only [execute_search_rpc, hempty]
      split
      · rfl
      · simp
    rw [hexec]

/-- Witness for C9: a transport exception yields the (empty) local search
results unchanged. -/
theorem claim_C9_witness :
    server_search RpcNet.exn "deploy" 20 [] = [] :=
  claim_C9 RpcNet.exn "deploy" 20 [] (Or.inl rfl)

/-! ## C5: deduplication properties -/

theorem dedupByKey_subset (key : Message → String) :
    ∀ (l : List Message) (seen : List String) (m : Message),
      m ∈ dedupByKey key l seen → m ∈ l := by
  intro l
  induction l with
  | nil => intro seen m h; simp [dedupByKey] at h
  | cons x rest ih =>
      intro seen m h
      simp only [dedupByKey] at h
      split at h
      · exact List.mem_cons_of_mem x (ih _ m h)
      · rcases List.mem_cons.mp h with heq | hmem
        · exact heq ▸ List.mem_cons_self x rest
        · exact List.mem_cons_of_mem x (ih _ m hmem)

theorem dedupByKey_key_not_seen (key : Message → String) :
    ∀ (l : List Message) (seen : List String) (m : Message),
      m ∈ dedupByKey key l seen → key m ∉ seen := by
  intro l
  induction l with
  | nil => intro seen m h; simp [dedupByKey] at h
  | cons x rest ih =>
      intro seen m h
      simp only [dedupByKey] at h
      split at h
      · exact ih _ m h
      · rcases List.mem_cons.mp h with heq | hmem
        · subst heq; assumption
        · have := ih _ m hmem
          intro hcontra
          exact this (List.mem_cons_of_mem _ hcontra)

theorem dedupByKey_pairwise (key : Message → String) :
    ∀ (l : List Message) (seen : List String),
      List.Pairwise (fun a b => key a ≠ key b) (dedupByKey key l seen) := by
  intro l
  induction l with
  | nil => intro seen; simp [dedupByKey]
  | cons x rest ih =>
      intro seen
      simp only [dedupByKey]
      split
      · exact ih _
      · refine List.Pairwise.cons ?_ (ih _)
        intro b hb
        have := dedupByKey_key_not_seen key rest (key x :: seen) b hb
        intro hcontra
        exact this (hcontra ▸ List.mem_cons_self _ _)

theorem dedupByKey_eq_self (key : Message → String) :
    ∀ (l : List Message) (seen : List String),
      (∀ m ∈ l, key m ∉ seen) →
      List.Pairwise (fun a b => key a ≠ key b) l →
      dedupByKey key l seen = l := by
  intro l
  induction l with
  | nil => intro seen _ _; rfl
  | cons x rest ih =>
      intro seen hdisj hpw
      simp only [dedupByKey]
      rw [if_neg (hdisj x (List.mem_cons_self x rest))]
      congr 1
      refine ih _ ?_ (List.Pairwise.sublist (List.sublist_cons_self x rest) hpw)
      intro m hm
      intro hcontra
      rcases List.mem_cons.mp hcontra with heq | hmem
      · exact (List.rel_of_pairwise_cons hpw hm) heq.symm
      · exact hdisj m (List.mem_cons_of_mem x hm) hmem

/-- C5: within a page, the parser's message list carries pairwise distinct
100-character text-prefix keys (at most one message per prefix); the
dedup pass is idempotent; and across pages the concatenated
`get_all_messages` result carries pairwise distinct id-or-50-char-prefix
keys. -/
theorem claim_C5 :
    (∀ (data : PB) (space_id : String),
      List.Pairwise (fun a b => pageKey a ≠ pageKey b)
        (parse_topics_with_threads data space_id).messages) ∧
    (∀ msgs : List Message,
      dedupByKey pageKey (dedupByKey pageKey msgs []) [] = dedupByKey pageKey msgs []) ∧
    (∀ (backend : Nat → Option Int → PageResult) (max_pages : Nat),
      List.Pairwise (fun a b => crossKey a ≠ crossKey b)
        (get_all_messages backend max_pages)) := by
  refine ⟨?_, ?_, ?_⟩
  · intro data space_id
    exact dedupByKey_pairwise pageKey
      (sortDescBy msgKey (parse_topics_state data space_id).messages) []
  · intro msgs
    exact dedupByKey_eq_self pageKey (dedupByKey pageKey msgs []) []
      (fun m _ => List.not_mem_nil _) (dedupByKey_pairwise pageKey msgs [])
  · intro backend max_pages
    exact dedupByKey_pairwise crossKey
      (((get_all_messages_trace backend none 0 max_pages).map PageResult.messages).flatten) []

/-- Witness for C5: the parser output on a trivial response has pairwise
distinct prefix keys. -/
theorem claim_C5_witness :
    List.Pairwise (fun a b => pageKey a ≠ pageKey b)
      (parse_topics_with_threads PB.null "S").messages :=
  claim_C5.1 PB.null "S"

/-! ## C7: the batch RPC encoder truncates the serialized params -/

theorem strData_mk (l : List Char) : (String.mk l).data = l := rfl

theorem strData_ext {a b : String} (h : a.data = b.data) : a = b := by
  cases a; cases b; exact congrArg String.mk h

theorem json_dumps_arr_trunc (xs : List PB) :
    json_dumps_compact (.arr xs) = strDropLastChar (json_dumps_compact (.arr xs)) ++ "]" := by
  apply strData_ext
  have h : jsonSer (.arr xs) = ('[' :: jsonSerList xs) ++ [']'] := by simp [jsonSer]
  simp only [json_dumps_compact, strDropLastChar, String.data_append, strData_mk, h,
    List.dropLast_concat]

/-- C7: for all search parameters, the compact JSON serialization of the
parameter array ends in a closing bracket that the encoder removes (the
truncated payload plus `"]"` reproduces the full serialization exactly),
the resulting `rpc_data` wraps the truncated string as the second element
of the `[[["SBNmJb", ·, null, "4"]]]` envelope, and on the fixed input
`("q", "UUID", no space filter, limit 20)` the encoder output matches the
expected wire bytes exactly. -/
theorem claim_C7 (query search_uuid : String) (space_id : Option String) (limit : Int) :
    (json_dumps_compact (search_params query search_uuid space_id limit) =
      strDropLastChar (json_dumps_compact (search_params query search_uuid space_id limit)) ++
        "]") ∧
    ((encode_search_rpc query search_uuid space_id limit).data =
      '[' :: '[' :: '[' ::
        (jsonSer (.str "SBNmJb") ++ ',' ::
          (jsonSer (.str (strDropLastChar
              (json_dumps_compact (search_params query search_uuid space_id limit)))) ++ ',' ::
            (jsonSer .null ++ ',' :: jsonSer (.str "4")))) ++ [']', ']', ']']) ∧
    (encode_search_rpc "q" "UUID" none 20 =
      "[[[\"SBNmJb\",\"[null,null,null,\\\"q\\\",null,\\\"UUID\\\",[[[],null,null,null,\\\"UUID\\\",null,0,[[[[[[1]]]]],[[[1]]]]],null,[3],[20]]\",null,\"4\"]]]") := by
  refine ⟨?_, ?_, ?_⟩
  · exact json_dumps_arr_trunc
      [.null, .null, .null, .str query, .null, .str search_uuid,
       .arr [search_config search_uuid space_id, .null, .arr [.int 3], .arr [.int limit]]]
  · show (json_dumps_compact
        (.arr [.arr [.arr [.str "SBNmJb",
          .str (strDropLastChar (json_dumps_compact (search_params query search_uuid space_id limit))),
          .null, .str "4"]]])).data = _
    simp only [json_dumps_compact, strData_mk]
    simp only [jsonSer, jsonSerList]
    simp [List.append_assoc]
  · decide

/-! ## Sorting and labeling lemmas for the topic assembler -/

theorem mem_insertAscBy (key : Message → Int) (x m : Message) :
    ∀ l : List Message, m ∈ insertAscBy key x l ↔ m = x ∨ m ∈ l := by
  intro l
  induction l with
  | nil => simp [insertAscBy]
  | cons y ys ih =>
      simp only [insertAscBy]
      split
      · rw [List.mem_cons, ih, List.mem_cons]
        tauto
      · exact List.mem_cons

theorem insertAscBy_pairwise (key : Message → Int) (x : Message) :
    ∀ l : List Message, List.Pairwise (fun a b => key a ≤ key b) l →
      List.Pairwise (fun a b => key a ≤ key b) (insertAscBy key x l) := by
  intro l
  induction l with
  | nil => intro _; simp [insertAscBy]
  | cons y ys ih =>
      intro hpw
      rcases List.pairwise_cons.mp hpw with ⟨hy, hys⟩
      simp only [insertAscBy]
      split
      · rename_i hlt
        refine List.pairwise_cons.mpr ⟨?_, ih hys⟩
        intro b hb
        rcases (mem_insertAscBy key x b ys).mp hb with heq | hmem
        · exact heq ▸ Int.le_of_lt hlt
        · exact hy b hmem
      · rename_i hnlt
        refine List.pairwise_cons.mpr ⟨?_, hpw⟩
        intro b hb
        rcases List.mem_cons.mp hb with heq | hmem
        · exact heq ▸ Int.not_lt.mp hnlt
        · exact le_trans (Int.not_lt.mp hnlt) (hy b hmem)

theorem mem_sortAscBy (key : Message → Int) (m : Message) :
    ∀ l : List Message, m ∈ sortAscBy key l ↔ m ∈ l := by
  intro l
  induction l with
  | nil => simp [sortAscBy]
  | cons y ys ih =>
      show m ∈ insertAscBy key y (sortAscBy key ys) ↔ _
      rw [mem_insertAscBy, ih]
      simp

theorem sortAscBy_pairwise (key : Message → Int) :
    ∀ l : List Message, List.Pairwise (fun a b => key a ≤ key b) (sortAscBy key l) := by
  intro l
  induction l with
  | nil => simp [sortAscBy]
  | cons y ys ih => exact insertAscBy_pairwise key y (sortAscBy key ys) ih

theorem length_insertAscBy (key : Message → Int) (x : Message) :
    ∀ l : List Message, (insertAscBy key x l).length = l.length + 1 := by
  intro l
  induction l with
  | nil => rfl
  | cons y ys ih =>
      simp only [insertAscBy]
      split
      · simp [ih]
      · simp

theorem length_sortAscBy (key : Message → Int) :
    ∀ l : List Message, (sortAscBy key l).length = l.length := by
  intro l
  induction l with
  | nil => rfl
  | cons y ys ih =>
      show (insertAscBy key y (sortAscBy key ys)).length = _
      rw [length_insertAscBy, ih, List.length_cons]

theorem mem_insertDescBy (key : Message → Int) (x m : Message) :
    ∀ l : List Message, m ∈ insertDescBy key x l ↔ m = x ∨ m ∈ l := by
  intro l
  induction l with
  | nil => simp [insertDescBy]
  | cons y ys ih =>
      simp only [insertDescBy]
      split
      · rw [List.mem_cons, ih, List.mem_cons]
        tauto
      · exact List.mem_cons

theorem mem_sortDescBy (key : Message → Int) (m : Message) :
    ∀ l : List Message, m ∈ sortDescBy key l ↔ m ∈ l := by
  intro l
  induction l with
  | nil => simp [sortDescBy]
  | cons y ys ih =>
      show m ∈ insertDescBy key y (sortDescBy key ys) ↔ _
      rw [mem_insertDescBy, ih]
      simp

theorem labelRepliesAux_length (l : List Message) :
    ∀ i : Nat, (labelRepliesAux i l).length = l.length := by
  induction l with
  | nil => intro i; rfl
  | cons m ms ih => intro i; simp [labelRepliesAux, ih]

theorem labelRepliesAux_exists (m : Message) :
    ∀ (l : List Message) (i : Nat), m ∈ labelRepliesAux i l →
      ∃ (j : Nat) (m0 : Message), m0 ∈ l ∧
        m = { m0 with is_thread_reply := decide (0 < j), reply_index := j } := by
  intro l
  induction l with
  | nil => intro i h; simp [labelRepliesAux] at h
  | cons x xs ih =>
      intro i h
      simp only [labelRepliesAux, List.mem_cons] at h
      rcases h with heq | hmem
      · exact ⟨i, x, List.mem_cons_self x xs, heq⟩
      · rcases ih (i + 1) hmem with ⟨j, m0, hm0, heq⟩
        exact ⟨j, m0, List.mem_cons_of_mem x hm0, heq⟩

theorem labelRepliesAux_pairwise (l : List Message) :
    List.Pairwise (fun a b => msgKey a ≤ msgKey b) l →
    ∀ i : Nat, List.Pairwise (fun a b => msgKey a ≤ msgKey b) (labelRepliesAux i l) := by
  induction l with
  | nil => intro _ i; simp [labelRepliesAux]
  | cons x xs ih =>
      intro hpw i
      rcases List.pairwise_cons.mp hpw with ⟨hx, hxs⟩
      refine List.pairwise_cons.mpr ⟨?_, ih hxs (i + 1)⟩
      intro b hb
      rcases labelRepliesAux_exists b xs (i + 1) hb with ⟨j, b0, hb0, heq⟩
      have hk : msgKey b = msgKey b0 := by rw [heq]; rfl
      rw [hk]
      exact hx b0 hb0

theorem labelRepliesAux_get (l : List Message) :
    ∀ (i k : Nat) (h : k < (labelRepliesAux i l).length),
      ((labelRepliesAux i l).get ⟨k, h⟩).is_thread_reply = decide (0 < i + k) ∧
      ((labelRepliesAux i l).get ⟨k, h⟩).reply_index = i + k := by
  induction l with
  | nil => intro i k h; simp [labelRepliesAux] at h
  | cons x xs ih =>
      intro i k h
      cases k with
      | zero => simp [labelRepliesAux]
      | succ k2 =>
          have h2 : k2 < (labelRepliesAux (i + 1) xs).length := by
            simp only [labelRepliesAux, List.length_cons] at h
            omega
          have hik := ih (i + 1) k2 h2
          have harith : i + 1 + k2 = i + (k2 + 1) := by omega
          simp only [labelRepliesAux, List.get_cons_succ]
          exact ⟨hik.1.trans (by rw [harith]), hik.2.trans harith⟩

/-- The invariant of every assembled topic's reply list: nonempty, sorted
non-decreasing by timestamp key, exactly index 0 is the thread root, and
`reply_index` equals the position. -/
def GoodReplies (l : List Message) : Prop :=
  l ≠ [] ∧
  List.Pairwise (fun a b => msgKey a ≤ msgKey b) l ∧
  ∀ (k : Nat) (h : k < l.length),
    ((l.get ⟨k, h⟩).is_thread_reply = decide (0 < k) ∧ (l.get ⟨k, h⟩).reply_index = k)

theorem labelled_sorted_good (tm : List Message) (hne : tm.isEmpty = false) :
    GoodReplies (labelReplies (sortAscBy msgKey tm)) := by
  refine ⟨?_, ?_, ?_⟩
  · intro hcontra
    have hl : (labelReplies (sortAscBy msgKey tm)).length = tm.length := by
      show (labelRepliesAux 0 (sortAscBy msgKey tm)).length = _
      rw [labelRepliesAux_length, length_sortAscBy]
    rw [hcontra] at hl
    cases tm with
    | nil => simp [List.isEmpty] at hne
    | cons a l => simp at hl
  · exact labelRepliesAux_pairwise (sortAscBy msgKey tm) (sortAscBy_pairwise msgKey tm) 0
  · intro k h
    have := labelRepliesAux_get (sortAscBy msgKey tm) 0 k h
    simpa using this

/-! ## Parser state invariants (C3 and C10) -/

theorem try_parse_message_fields (space_id : String) (a : PB) (t : Option String)
    (m : Message) (h : try_parse_message space_id a t = some m) :
    m.topic_id = t ∧ m.space_id = space_id := by
  cases a with
  | null => simp [try_parse_message] at h
  | bool b => simp [try_parse_message] at h
  | int n => simp [try_parse_message] at h
  | str s => simp [try_parse_message] at h
  | arr xs =>
      simp only [try_parse_message] at h
      split at h
      · simp at h
      · split at h
        · split at h
          · simp at h
          · cases h
            exact ⟨rfl, rfl⟩
        · simp at h

theorem from_six_topic_id (space_id : String) (xs : List PB) (eff : Option String)
    (m : Message) (hm : m ∈ from_six space_id xs eff) : m.topic_id = eff := by
  simp only [from_six] at hm
  split at hm
  · rcases List.mem_filterMap.mp hm with ⟨a, _, ha⟩
    exact (try_parse_message_fields space_id a eff m ha).1
  · simp at hm

/-- The invariant maintained by the topic assembler: every accumulated flat
message has a truthy topic id, and every accumulated topic has well-formed
(sorted, labelled, nonempty) replies with truthy topic ids. -/
def ParserInv (st : ParseState) : Prop :=
  (∀ m ∈ st.messages, strTruthy m.topic_id = true) ∧
  (∀ t ∈ st.topics, GoodReplies t.replies ∧ ∀ m ∈ t.replies, strTruthy m.topic_id = true)

theorem labelled_mem_topic_id (tm : List Message) (m : Message)
    (hm : m ∈ labelReplies (sortAscBy msgKey tm)) :
    ∃ m0 ∈ tm, m.topic_id = m0.topic_id := by
  rcases labelRepliesAux_exists m (sortAscBy msgKey tm) 0 hm with ⟨j, m0, hm0, heq⟩
  refine ⟨m0, (mem_sortAscBy msgKey m0 tm).mp hm0, ?_⟩
  rw [heq]

theorem topic_record_step_inv (space_id : String) (topic_id : Option String)
    (topic_timestamp : Option Int) (parent : Option String) (tm : List Message)
    (st1 : ParseState) (hinv : ParserInv st1)
    (htm : ∀ m ∈ tm, m.topic_id = pyOrStr topic_id parent) :
    ParserInv (topic_record_step space_id topic_id topic_timestamp tm st1) := by
  cases topic_id with
  | none => exact hinv
  | some tid =>
      simp only [topic_record_step]
      split
      · rename_i hcond
        simp only [Bool.and_eq_true] at hcond
        rcases hcond with ⟨htid, htmne⟩
        have heff : pyOrStr (some tid) parent = some tid := by
          simp only [pyOrStr, strTruthy]
          rw [if_pos htid]
        have htruthy : ∀ m ∈ labelReplies (sortAscBy msgKey tm), strTruthy m.topic_id = true := by
          intro m hm
          rcases labelled_mem_topic_id tm m hm with ⟨m0, hm0, heq⟩
          rw [heq, htm m0 hm0, heff]
          simpa [strTruthy] using htid
        constructor
        · intro m hm
          rcases List.mem_append.mp hm with hold | hnew
          · exact hinv.1 m hold
          · exact htruthy m hnew
        · intro t ht
          rcases List.mem_append.mp ht with hold | hnew
          · exact hinv.2 t hold
          · rw [List.mem_singleton] at hnew
            subst hnew
            refine ⟨labelled_sorted_good tm ?_, htruthy⟩
            cases htmeq : tm.isEmpty
            · rfl
            · rw [htmeq] at htmne; simp at htmne
      · exact hinv

mutual

theorem extract_preserves_inv (space_id : String) (p : PB) (depth : Nat)
    (parent : Option String) (st : ParseState) (h : ParserInv st) :
    ParserInv (extract_topic_and_messages space_id p depth parent st) := by
  match p with
  | .null => exact h
  | .bool b => exact h
  | .int n => exact h
  | .str s => exact h
  | .arr xs =>
      simp only [extract_topic_and_messages]
      by_cases hd : depth > 30
      · rw [if_pos hd]; exact h
      · rw [if_neg hd]
        by_cases hc : (from_six space_id xs (pyOrStr (topic_id_of xs) parent)).isEmpty
        · rw [if_pos hc]
          have hfb := fallback_preserves_inv space_id xs depth
            (pyOrStr (topic_id_of xs) parent) [] st h (by simp)
          exact topic_record_step_inv space_id (topic_id_of xs) (topic_timestamp_of xs)
            parent _ _ hfb.2 hfb.1
        · rw [if_neg hc]
          exact topic_record_step_inv space_id (topic_id_of xs) (topic_timestamp_of xs)
            parent _ _ h
            (fun m hm => from_six_topic_id space_id xs _ m hm)

theorem fallback_preserves_inv (space_id : String) (items : List PB) (depth : Nat)
    (eff : Option String) (acc : List Message) (st : ParseState) (h : ParserInv st)
    (hacc : ∀ m ∈ acc, m.topic_id = eff) :
    (∀ m ∈ (fallback_scan space_id items depth eff acc st).1, m.topic_id = eff) ∧
    ParserInv (fallback_scan space_id items depth eff acc st).2 := by
  match items with
  | [] =>
      simp only [fallback_scan]
      exact ⟨hacc, h⟩
  | item :: rest =>
      match item with
      | .null => simp only [fallback_scan]; exact fallback_preserves_inv space_id rest depth eff acc st h hacc
      | .bool b => simp only [fallback_scan]; exact fallback_preserves_inv space_id rest depth eff acc st h hacc
      | .int n => simp only [fallback_scan]; exact fallback_preserves_inv space_id rest depth eff acc st h hacc
      | .str s => simp only [fallback_scan]; exact fallback_preserves_inv space_id rest depth eff acc st h hacc
      | .arr ys =>
          simp only [fallback_scan]
          cases htp : try_parse_message space_id (.arr ys) eff with
          | some m =>
              refine fallback_preserves_inv space_id rest depth eff (acc ++ [m]) st h ?_
              intro m2 hm2
              rcases List.mem_append.mp hm2 with hold | hnew
              · exact hacc m2 hold
              · rw [List.mem_singleton] at hnew
                subst hnew
                exact (try_parse_message_fields space_id (.arr ys) eff m2 htp).1
          | none =>
              exact fallback_preserves_inv space_id rest depth eff acc
                (extract_topic_and_messages space_id (.arr ys) (depth + 1) eff st)
                (extract_preserves_inv space_id (.arr ys) (depth + 1) eff st h) hacc

end

theorem foldl_extract_inv (space_id : String) :
    ∀ (l : List PB) (st : ParseState), ParserInv st →
      ParserInv (l.foldl (fun s td => extract_topic_and_messages space_id td 0 none s) st) := by
  intro l
  induction l with
  | nil => intro st h; exact h
  | cons x xs ih =>
      intro st h
      exact ih _ (extract_preserves_inv space_id x 0 none st h)

theorem parse_topics_state_inv (data : PB) (space_id : String) :
    ParserInv (parse_topics_state data space_id) := by
  have hinit : ParserInv ⟨[], [], none⟩ := ⟨by simp, by simp⟩
  simp only [parse_topics_state]
  split
  · split
    · exact extract_preserves_inv space_id data 0 none _ hinit
    · exact foldl_extract_inv space_id _ _ hinit
  · exact extract_preserves_inv space_id data 0 none _ hinit

/-- C3: in every topic assembled by the paginated parser, the replies are
in non-decreasing order of the timestamp key (missing timestamps counted as
zero), the reply list is nonempty with exactly index 0 carrying
`is_thread_reply = false`, and every reply's `reply_index` equals its
position. -/
theorem claim_C3 (data : PB) (space_id : String) (t : TopicRec)
    (ht : t ∈ (parse_topics_with_threads data space_id).topics) :
    t.replies ≠ [] ∧
    List.Pairwise (fun a b => msgKey a ≤ msgKey b) t.replies ∧
    ∀ (k : Nat) (hk : k < t.replies.length),
      ((t.replies.get ⟨k, hk⟩).is_thread_reply = decide (0 < k) ∧
        (t.replies.get ⟨k, hk⟩).reply_index = k) := by
  have hinv := parse_topics_state_inv data space_id
  have hgood := (hinv.2 t ht).1
  exact ⟨hgood.1, hgood.2.1, hgood.2.2⟩

/-- C10: every message in the parser's flat `messages` list, and every
reply inside every assembled topic, carries a non-`None` topic id — message
fragments found where no topic identifier was extracted are dropped. -/
theorem claim_C10 (data : PB) (space_id : String) :
    (∀ m ∈ (parse_topics_with_threads data space_id).messages, m.topic_id ≠ none) ∧
    (∀ t ∈ (parse_topics_with_threads data space_id).topics,
      ∀ m ∈ t.replies, m.topic_id ≠ none) := by
  have hinv := parse_topics_state_inv data space_id
  constructor
  · intro m hm
    have h1 : m ∈ sortDescBy msgKey (parse_topics_state data space_id).messages :=
      dedupByKey_subset pageKey _ [] m hm
    have h2 : m ∈ (parse_topics_state data space_id).messages :=
      (mem_sortDescBy msgKey m _).mp h1
    exact strTruthy_some_ne_none (hinv.1 m h2)
  · intro t ht m hm
    exact strTruthy_some_ne_none ((hinv.2 t ht).2 m hm)

/-! ## Concrete witness data for the parser claims -/

/-- A synthetic message array: id `M1`, sender `u1`, a 16-digit timestamp
at index 2 and text `"hello world"` at index 9. -/
def wMsgArr : PB :=
  .arr [.arr [.null, .str "M1"], .arr [.arr [.str "u1"]], .str "1700000000000000",
    .null, .null, .null, .null, .null, .null, .str "hello world"]

/-- A synthetic topic array: id `T1` at slot `[0][1]`, timestamp at slot 1,
one message at slot 6. -/
def wTopicArr : PB :=
  .arr [.arr [.null, .str "T1"], .str "1700000000000000", .null, .null, .null, .null,
    .arr [wMsgArr]]

/-- A synthetic `list_topics` response with the topics array at `data[0][1]`. -/
def wData : PB := .arr [.arr [.null, .arr [wTopicArr]]]

/-- The message the parser builds from `wMsgArr`. -/
def wMsg : Message :=
  ⟨some "M1", some "T1", "S", "hello world", some 1700000000000000, some (.str "u1"),
    false, 0⟩

/-- The topic the parser builds from `wTopicArr`. -/
def wTopic : TopicRec := ⟨"T1", "S", some 1700000000000000, 1, [wMsg]⟩

theorem wData_topics : (parse_topics_with_threads wData "S").topics = [wTopic] := rfl

/-- Witness for C3 on the synthetic one-topic response: the assembled
topic's reply list is nonempty and index 0 is the (unique) thread root. -/
theorem claim_C3_witness :
    wTopic.replies ≠ [] ∧
    ((wTopic.replies.get ⟨0, by decide⟩).is_thread_reply = decide (0 < 0) ∧
      (wTopic.replies.get ⟨0, by decide⟩).reply_index = 0) := by
  have hmem : wTopic ∈ (parse_topics_with_threads wData "S").topics := by
    rw [wData_topics]
    exact List.mem_singleton.mpr rfl
  have hc := claim_C3 wData "S" wTopic hmem
  exact ⟨hc.1, hc.2.2 0 (by decide)⟩

/-- Witness for C10 on the synthetic one-topic response: the parsed message
carries topic id `T1`, not `None`. -/
theorem claim_C10_witness : wMsg.topic_id ≠ none := by
  have hmem : wMsg ∈ (parse_topics_with_threads wData "S").messages := by
    have h : (parse_topics_with_threads wData "S").messages = [wMsg] := rfl
    rw [h]
    exact List.mem_singleton.mpr rfl
  exact (claim_C10 wData "S").1 wMsg hmem

/-! ## C8: search-hit extraction from batch RPC fragments -/

mutual

theorem esr_complete (query s : String) (data : PB) (d c : Nat)
    (hat : StrAt s data d) (hd : 1 ≤ d) (hdepth : c + d ≤ 16)
    (hm : matchesQuery s query = true) :
    make_search_hit s query ∈ extract_search_results data query c := by
  cases hat with
  | here => omega
  | there hx hsub =>
      rename_i x xs d2
      simp only [extract_search_results]
      rw [if_neg (by omega : ¬ c > 15)]
      exact esr_items_complete query s xs d2 c ⟨x, hx, hsub⟩ (by omega) hm

theorem esr_items_complete (query s : String) (items : List PB) (d c : Nat)
    (hx : ∃ x ∈ items, StrAt s x d) (hdepth : c + d ≤ 15)
    (hm : matchesQuery s query = true) :
    make_search_hit s query ∈ extract_search_results_items items query c := by
  match items, hx with
  | item :: rest, hex =>
      rcases hex with ⟨x, hxmem, hsub⟩
      rcases List.mem_cons.mp hxmem with heq | hmem
      · subst heq
        cases hsub with
        | here =>
            simp only [extract_search_results_items]
            rw [if_pos hm]
            exact List.mem_append.mpr (Or.inl (List.mem_singleton.mpr rfl))
        | there hy hsub2 =>
            simp only [extract_search_results_items]
            refine List.mem_append.mpr (Or.inl ?_)
            exact esr_complete query s _ _ (c + 1) (StrAt.there hy hsub2) (by omega)
              (by omega) hm
      · cases item with
        | null =>
            simp only [extract_search_results_items]
            exact esr_items_complete query s rest d c ⟨x, hmem, hsub⟩ hdepth hm
        | bool b =>
            simp only [extract_search_results_items]
            exact esr_items_complete query s rest d c ⟨x, hmem, hsub⟩ hdepth hm
        | int n =>
            simp only [extract_search_results_items]
            exact esr_items_complete query s rest d c ⟨x, hmem, hsub⟩ hdepth hm
        | str s2 =>
            simp only [extract_search_results_items]
            refine List.mem_append.mpr (Or.inr ?_)
            exact esr_items_complete query s rest d c ⟨x, hmem, hsub⟩ hdepth hm
        | arr ys =>
            simp only [extract_search_results_items]
            refine List.mem_append.mpr (Or.inr ?_)
            exact esr_items_complete query s rest d c ⟨x, hmem, hsub⟩ hdepth hm

end

/-- C8 (amended): every string leaf of a parsed fragment that is longer
than 10 characters, sits at nesting depth at most 16, and contains the
query case-insensitively, is returned as a search hit carrying the full
string as text together with the computed context snippet. -/
theorem claim_C8_amended (data : PB) (query s : String) (d : Nat)
    (hat : StrAt s data d) (hd1 : 1 ≤ d) (hd16 : d ≤ 16)
    (hlen : s.length > 10)
    (hsub : strContains (strLower s) (strLower query) = true) :
    make_search_hit s query ∈ extract_search_results data query 0 := by
  refine esr_complete query s data d 0 hat hd1 (by omega) ?_
  simp only [matchesQuery, Bool.and_eq_true, decide_eq_true_eq]
  exact ⟨hlen, hsub⟩

/-- Counterexample to C8 as stated: the fragment `["deploy"]` contains the
string leaf `"deploy"` which contains the query `"deploy"`
case-insensitively, yet the extractor returns no results at all, because
the code additionally requires `len(item) > 10`. -/
theorem claim_C8_counterexample :
    StrAt "deploy" (.arr [.str "deploy"]) 1 ∧
    strContains (strLower "deploy") (strLower "deploy") = true ∧
    extract_search_results (.arr [.str "deploy"]) "deploy" 0 = [] := by
  refine ⟨StrAt.there (List.mem_singleton.mpr rfl) (StrAt.here "deploy"), by decide, rfl⟩

/-- Witness for the amended C8: a 18-character leaf containing `"deploy"`
is extracted together with its snippet. -/
theorem claim_C8_witness :
    make_search_hit "hello world deploy" "deploy" ∈
      extract_search_results (.arr [.str "hello world deploy"]) "deploy" 0 :=
  claim_C8_amended (.arr [.str "hello world deploy"]) "deploy" "hello world deploy" 1
    (StrAt.there (List.mem_singleton.mpr rfl) (StrAt.here "hello world deploy"))
    (by decide) (by decide) (by decide) (by decide)

/-! ## C1: scan-level lemmas for the pblite space extractor -/

theorem space_not_dm (s : String) (h : isSpaceIdStr s = true) : isDmIdStr s = false := by
  simp only [isSpaceIdStr, Bool.and_eq_true, beq_iff_eq] at h
  simp [isDmIdStr, h.1]

/-- All identifier-candidate string leaves of `p` are equal to `s`. -/
def OnlyCandIn (s : String) (p : PB) : Prop :=
  ∀ (t : String) (d : Nat), StrAt t p d → isIdCandidate t = true → t = s

theorem onlyCandIn_mem {s : String} {x : PB} {xs : List PB}
    (h : OnlyCandIn s (.arr xs)) (hx : x ∈ xs) : OnlyCandIn s x :=
  fun t d hd hc => h t (d + 1) (.there hx hd) hc

theorem foldl_id_or {f : ScanAcc → PB → ScanAcc} (s : String) :
    ∀ (l : List PB),
      (∀ (acc : ScanAcc) (x : PB), x ∈ l →
        (f acc x).space_id = acc.space_id ∨ (f acc x).space_id = some s) →
      ∀ acc : ScanAcc,
        (l.foldl f acc).space_id = acc.space_id ∨ (l.foldl f acc).space_id = some s := by
  intro l
  induction l with
  | nil => intro _ acc; exact Or.inl rfl
  | cons x xs ih =>
      intro hstep acc
      have h1 := hstep acc x (List.mem_cons_self x xs)
      have h2 := ih (fun a y hy => hstep a y (List.mem_cons_of_mem x hy)) (f acc x)
      simp only [List.foldl_cons]
      rcases h2 with h2 | h2
      · rw [h2]
        exact h1
      · exact Or.inr h2

theorem foldl_id_persist {f : ScanAcc → PB → ScanAcc} (s : String) (l : List PB)
    (hstep : ∀ (acc : ScanAcc) (x : PB), x ∈ l →
      (f acc x).space_id = acc.space_id ∨ (f acc x).space_id = some s)
    (acc : ScanAcc) (h : acc.space_id = some s) :
    (l.foldl f acc).space_id = some s := by
  rcases foldl_id_or s l hstep acc with h2 | h2
  · rw [h2, h]
  · exact h2

theorem scanDeep_id (s : String) (_hspace : isSpaceIdStr s = true) (deep : PB)
    (hc : OnlyCandIn s deep) (acc : ScanAcc) :
    (scanDeep acc deep).space_id = acc.space_id ∨ (scanDeep acc deep).space_id = some s := by
  cases deep with
  | str t =>
      simp only [scanDeep]
      by_cases h1 : isSpaceIdStr t = true
      · rw [if_pos h1]
        right
        have ht : t = s := hc t 0 (StrAt.here t) (by simp [isIdCandidate, h1])
        rw [ht]
      · rw [if_neg h1]
        exact Or.inl rfl
  | null => exact Or.inl rfl
  | bool b => exact Or.inl rfl
  | int n => exact Or.inl rfl
  | arr ys => exact Or.inl rfl

theorem scanNested_id (s : String) (hspace : isSpaceIdStr s = true) (nested : PB)
    (hc : OnlyCandIn s nested) (acc : ScanAcc) :
    (scanNested acc nested).space_id = acc.space_id ∨
      (scanNested acc nested).space_id = some s := by
  cases nested with
  | str t =>
      simp only [scanNested]
      by_cases h1 : isSpaceIdStr t = true
      · rw [if_pos h1]
        right
        have ht : t = s := hc t 0 (StrAt.here t) (by simp [isIdCandidate, h1])
        rw [ht]
      · rw [if_neg h1]
        by_cases h2 : isDmIdStr t = true
        · rw [if_pos h2]
          have ht : t = s := hc t 0 (StrAt.here t) (by simp [isIdCandidate, h2])
          subst ht
          rw [space_not_dm t hspace] at h2
          cases h2
        · rw [if_neg h2]
          exact Or.inl rfl
  | arr deeps =>
      exact foldl_id_or s deeps
        (fun a x hx => scanDeep_id s hspace x (onlyCandIn_mem hc hx) a) acc
  | null => exact Or.inl rfl
  | bool b => exact Or.inl rfl
  | int n => exact Or.inl rfl

theorem scanString_id (s : String) (hspace : isSpaceIdStr s = true) (t : String)
    (hts : isIdCandidate t = true → t = s) (acc : ScanAcc) :
    (scanString acc t).space_id = acc.space_id ∨ (scanString acc t).space_id = some s := by
  simp only [scanString]
  by_cases h1 : isSpaceIdStr t = true
  · rw [if_pos h1]
    right
    have ht : t = s := hts (by simp [isIdCandidate, h1])
    rw [ht]
  · rw [if_neg h1]
    by_cases h2 : isDmIdStr t = true
    · rw [if_pos h2]
      have ht : t = s := hts (by simp [isIdCandidate, h2])
      subst ht
      rw [space_not_dm t hspace] at h2
      cases h2
    · rw [if_neg h2]
      by_cases h3 : (isRoomNameStr t && acc.space_name.isNone) = true
      · rw [if_pos h3]
        exact Or.inl rfl
      · rw [if_neg h3]
        exact Or.inl rfl

theorem scanSub_id (s : String) (hspace : isSpaceIdStr s = true) (sub : PB)
    (hc : OnlyCandIn s sub) (acc : ScanAcc) :
    (scanSub acc sub).space_id = acc.space_id ∨ (scanSub acc sub).space_id = some s := by
  cases sub with
  | str t =>
      exact scanString_id s hspace t (fun hcand => hc t 0 (StrAt.here t) hcand) acc
  | arr nesteds =>
      exact foldl_id_or s nesteds
        (fun a x hx => scanNested_id s hspace x (onlyCandIn_mem hc hx) a) acc
  | null => exact Or.inl rfl
  | bool b => exact Or.inl rfl
  | int n => exact Or.inl rfl

theorem scanString_hit (s : String) (hspace : isSpaceIdStr s = true) (acc : ScanAcc) :
    (scanString acc s).space_id = some s := by
  simp only [scanString]
  rw [if_pos hspace]

/-- If `s` is a direct string child of the scanned item and every candidate
identifier string in the item's subtree equals `s`, the scan ends with
`space_id = s`. -/
theorem scanItem_id_of_mem (s : String) (ys : List PB)
    (hspace : isSpaceIdStr s = true) (hmem : PB.str s ∈ ys)
    (hc : OnlyCandIn s (.arr ys)) :
    (scanItem ys).space_id = some s := by
  rcases List.append_of_mem hmem with ⟨l1, l2, hsplit⟩
  subst hsplit
  show ((l1 ++ PB.str s :: l2).foldl scanSub initScanAcc).space_id = some s
  rw [List.foldl_append, List.foldl_cons]
  refine foldl_id_persist s l2 ?_ _ ?_
  · intro a x hx
    refine scanSub_id s hspace x (onlyCandIn_mem hc ?_) a
    exact List.mem_append.mpr (Or.inr (List.mem_cons_of_mem _ hx))
  · exact scanString_hit s hspace _

/-! ### The scan's type invariant: a space-pattern id always gets kind `"space"` -/

/-- Whenever the scan accumulator holds a space-pattern identifier, its
`space_type` is `"space"`. -/
def ScanTypeInv (acc : ScanAcc) : Prop :=
  ∀ v : String, acc.space_id = some v → isSpaceIdStr v = true → acc.space_type = "space"

theorem foldl_typeInv {f : ScanAcc → PB → ScanAcc}
    (hf : ∀ (acc : ScanAcc) (x : PB), ScanTypeInv acc → ScanTypeInv (f acc x)) :
    ∀ (l : List PB) (acc : ScanAcc), ScanTypeInv acc → ScanTypeInv (l.foldl f acc) := by
  intro l
  induction l with
  | nil => intro acc h; exact h
  | cons x xs ih => intro acc h; exact ih (f acc x) (hf acc x h)

theorem scanString_typeInv (acc : ScanAcc) (t : String) (h : ScanTypeInv acc) :
    ScanTypeInv (scanString acc t) := by
  simp only [scanString]
  by_cases h1 : isSpaceIdStr t = true
  · rw [if_pos h1]
    intro v hv _
    rfl
  · rw [if_neg h1]
    by_cases h2 : isDmIdStr t = true
    · rw [if_pos h2]
      intro v hv hsv
      exfalso
      cases hv
      exact h1 hsv
    · rw [if_neg h2]
      by_cases h3 : (isRoomNameStr t && acc.space_name.isNone) = true
      · rw [if_pos h3]
        intro v hv hsv
        exact h v hv hsv
      · rw [if_neg h3]
        exact h

theorem scanDeep_typeInv (acc : ScanAcc) (deep : PB) (h : ScanTypeInv acc) :
    ScanTypeInv (scanDeep acc deep) := by
  cases deep with
  | str t =>
      simp only [scanDeep]
      by_cases h1 : isSpaceIdStr t = true
      · rw [if_pos h1]
        intro v hv _
        rfl
      · rw [if_neg h1]
        exact h
  | null => exact h
  | bool b => exact h
  | int n => exact h
  | arr ys => exact h

theorem scanNested_typeInv (acc : ScanAcc) (nested : PB) (h : ScanTypeInv acc) :
    ScanTypeInv (scanNested acc nested) := by
  cases nested with
  | str t =>
      simp only [scanNested]
      by_cases h1 : isSpaceIdStr t = true
      · rw [if_pos h1]
        intro v hv _
        rfl
      · rw [if_neg h1]
        by_cases h2 : isDmIdStr t = true
        · rw [if_pos h2]
          intro v hv hsv
          exfalso
          cases hv
          exact h1 hsv
        · rw [if_neg h2]
          exact h
  | arr deeps => exact foldl_typeInv (fun a x => scanDeep_typeInv a x) deeps acc h
  | null => exact h
  | bool b => exact h
  | int n => exact h

theorem scanSub_typeInv (acc : ScanAcc) (sub : PB) (h : ScanTypeInv acc) :
    ScanTypeInv (scanSub acc sub) := by
  cases sub with
  | str t => exact scanString_typeInv acc t h
  | arr nesteds => exact foldl_typeInv (fun a x => scanNested_typeInv a x) nesteds acc h
  | null => exact h
  | bool b => exact h
  | int n => exact h

theorem scanItem_typeInv (ys : List PB) : ScanTypeInv (scanItem ys) := by
  refine foldl_typeInv (fun a x => scanSub_typeInv a x) ys initScanAcc ?_
  intro v hv
  cases hv

/-! ### Record-step and traversal lemmas for `find_spaces` -/

theorem recordSpace_seen_mono (acc : ScanAcc) (st : ExtractState) :
    ∀ v ∈ st.seen, v ∈ (recordSpace acc st).seen := by
  obtain ⟨osid, oname, otype⟩ := acc
  intro v hv
  cases osid with
  | none => exact hv
  | some sid =>
      simp only [recordSpace]
      by_cases hmem : sid ∈ st.seen
      · rw [if_pos hmem]
        exact hv
      · rw [if_neg hmem]
        exact List.mem_cons_of_mem sid hv

theorem recordSpace_spaces_mono (acc : ScanAcc) (st : ExtractState) :
    ∀ r ∈ st.spaces, r ∈ (recordSpace acc st).spaces := by
  obtain ⟨osid, oname, otype⟩ := acc
  intro r hr
  cases osid with
  | none => exact hr
  | some sid =>
      simp only [recordSpace]
      by_cases hmem : sid ∈ st.seen
      · rw [if_pos hmem]
        exact hr
      · rw [if_neg hmem]
        exact List.mem_append.mpr (Or.inl hr)

theorem recordSpace_adds (acc : ScanAcc) (st : ExtractState) (s : String)
    (h : acc.space_id = some s) : s ∈ (recordSpace acc st).seen := by
  simp only [recordSpace, h]
  by_cases hmem : s ∈ st.seen
  · rw [if_pos hmem]
    exact hmem
  · rw [if_neg hmem]
    exact List.mem_cons_self s st.seen

theorem recordSpace_seen_cases (acc : ScanAcc) (st : ExtractState) (v : String)
    (hv : isSpaceIdStr v = true) (htype : ScanTypeInv acc)
    (h : v ∈ (recordSpace acc st).seen) :
    v ∈ st.seen ∨ ∃ nm, SpaceRec.mk v nm "space" ∈ (recordSpace acc st).spaces := by
  obtain ⟨osid, oname, otype⟩ := acc
  cases osid with
  | none => exact Or.inl h
  | some sid =>
      simp only [recordSpace] at h ⊢
      by_cases hmem : sid ∈ st.seen
      · rw [if_pos hmem] at h
        exact Or.inl h
      · rw [if_neg hmem] at h ⊢
        rcases List.mem_cons.mp h with heq | hmem2
        · subst heq
          right
          have ht : otype = "space" := htype v rfl hv
          subst ht
          exact ⟨oname, List.mem_append.mpr (Or.inr (List.mem_singleton.mpr rfl))⟩
        · exact Or.inl hmem2

mutual

theorem find_spaces_mono (p : PB) (depth : Nat) (st : ExtractState) :
    (∀ v ∈ st.seen, v ∈ (find_spaces p depth st).seen) ∧
    (∀ r ∈ st.spaces, r ∈ (find_spaces p depth st).spaces) := by
  match p with
  | .null => exact ⟨fun v hv => hv, fun r hr => hr⟩
  | .bool b => exact ⟨fun v hv => hv, fun r hr => hr⟩
  | .int n => exact ⟨fun v hv => hv, fun r hr => hr⟩
  | .str s => exact ⟨fun v hv => hv, fun r hr => hr⟩
  | .arr items =>
      simp only [find_spaces]
      by_cases hd : depth > 25
      · rw [if_pos hd]
        exact ⟨fun v hv => hv, fun r hr => hr⟩
      · rw [if_neg hd]
        exact find_spaces_items_mono items depth st

theorem find_spaces_items_mono (items : List PB) (depth : Nat) (st : ExtractState) :
    (∀ v ∈ st.seen, v ∈ (find_spaces_items items depth st).seen) ∧
    (∀ r ∈ st.spaces, r ∈ (find_spaces_items items depth st).spaces) := by
  match items with
  | [] => exact ⟨fun v hv => hv, fun r hr => hr⟩
  | item :: rest =>
      match item with
      | .null => exact find_spaces_items_mono rest depth st
      | .bool b => exact find_spaces_items_mono rest depth st
      | .int n => exact find_spaces_items_mono rest depth st
      | .str s => exact find_spaces_items_mono rest depth st
      | .arr ys =>
          simp only [find_spaces_items]
          have h1 : ∀ v ∈ st.seen,
              v ∈ (find_spaces (.arr ys) (depth + 1) (recordSpace (scanItem ys) st)).seen :=
            fun v hv => (find_spaces_mono (.arr ys) (depth + 1) _).1 v
              (recordSpace_seen_mono _ st v hv)
          have h2 : ∀ r ∈ st.spaces,
              r ∈ (find_spaces (.arr ys) (depth + 1) (recordSpace (scanItem ys) st)).spaces :=
            fun r hr => (find_spaces_mono (.arr ys) (depth + 1) _).2 r
              (recordSpace_spaces_mono _ st r hr)
          exact ⟨fun v hv => (find_spaces_items_mono rest depth _).1 v (h1 v hv),
                 fun r hr => (find_spaces_items_mono rest depth _).2 r (h2 r hr)⟩

end

mutual

theorem find_spaces_reaches (s : String) (p : PB) (depth : Nat) (st : ExtractState)
    (A : List PB) (d : Nat) (hat : ArrAt A p d) (hd : 1 ≤ d) (hdepth : depth + d ≤ 26)
    (hscan : (scanItem A).space_id = some s) :
    s ∈ (find_spaces p depth st).seen := by
  cases hat with
  | here => omega
  | there hx hsub =>
      rename_i x xs d2
      simp only [find_spaces]
      rw [if_neg (by omega : ¬ depth > 25)]
      exact find_spaces_items_reaches s xs depth st A d2 ⟨x, hx, hsub⟩ (by omega) hscan

theorem find_spaces_items_reaches (s : String) (items : List PB) (depth : Nat)
    (st : ExtractState) (A : List PB) (d2 : Nat)
    (hex : ∃ x ∈ items, ArrAt A x d2) (hdepth : depth + d2 ≤ 25)
    (hscan : (scanItem A).space_id = some s) :
    s ∈ (find_spaces_items items depth st).seen := by
  match items, hex with
  | item :: rest, hex =>
      rcases hex with ⟨x, hxmem, hsub⟩
      rcases List.mem_cons.mp hxmem with heq | hmem
      · subst heq
        cases hsub with
        | here =>
            simp only [find_spaces_items]
            have h1 : s ∈ (recordSpace (scanItem A) st).seen :=
              recordSpace_adds (scanItem A) st s hscan
            have h2 := (find_spaces_mono (.arr A) (depth + 1) _).1 s h1
            exact (find_spaces_items_mono rest depth _).1 s h2
        | there hy hsub2 =>
            rename_i y ys d3
            simp only [find_spaces_items]
            have h1 : s ∈ (find_spaces (.arr ys) (depth + 1)
                (recordSpace (scanItem ys) st)).seen :=
              find_spaces_reaches s (.arr ys) (depth + 1) _ A (d3 + 1)
                (ArrAt.there hy hsub2) (by omega) (by omega) hscan
            exact (find_spaces_items_mono rest depth _).1 s h1
      · cases item with
        | null =>
            exact find_spaces_items_reaches s rest depth st A d2 ⟨x, hmem, hsub⟩ hdepth hscan
        | bool b =>
            exact find_spaces_items_reaches s rest depth st A d2 ⟨x, hmem, hsub⟩ hdepth hscan
        | int n =>
            exact find_spaces_items_reaches s rest depth st A d2 ⟨x, hmem, hsub⟩ hdepth hscan
        | str s2 =>
            exact find_spaces_items_reaches s rest depth st A d2 ⟨x, hmem, hsub⟩ hdepth hscan
        | arr ys =>
            simp only [find_spaces_items]
            exact find_spaces_items_reaches s rest depth
              (find_spaces (.arr ys) (depth + 1) (recordSpace (scanItem ys) st))
              A d2 ⟨x, hmem, hsub⟩ hdepth hscan

end

mutual

theorem find_spaces_seen_to_space (v : String) (p : PB) (depth : Nat) (st : ExtractState)
    (hv : isSpaceIdStr v = true) (h : v ∈ (find_spaces p depth st).seen) :
    v ∈ st.seen ∨ ∃ nm, SpaceRec.mk v nm "space" ∈ (find_spaces p depth st).spaces := by
  match p with
  | .null => exact Or.inl h
  | .bool b => exact Or.inl h
  | .int n => exact Or.inl h
  | .str s => exact Or.inl h
  | .arr items =>
      simp only [find_spaces] at h ⊢
      by_cases hd : depth > 25
      · rw [if_pos hd] at h
        exact Or.inl h
      · rw [if_neg hd] at h ⊢
        exact find_spaces_items_seen_to_space v items depth st hv h

theorem find_spaces_items_seen_to_space (v : String) (items : List PB) (depth : Nat)
    (st : ExtractState) (hv : isSpaceIdStr v = true)
    (h : v ∈ (find_spaces_items items depth st).seen) :
    v ∈ st.seen ∨ ∃ nm, SpaceRec.mk v nm "space" ∈ (find_spaces_items items depth st).spaces := by
  match items with
  | [] => exact Or.inl h
  | item :: rest =>
      match item with
      | .null => exact find_spaces_items_seen_to_space v rest depth st hv h
      | .bool b => exact find_spaces_items_seen_to_space v rest depth st hv h
      | .int n => exact find_spaces_items_seen_to_space v rest depth st hv h
      | .str s => exact find_spaces_items_seen_to_space v rest depth st hv h
      | .arr ys =>
          simp only [find_spaces_items] at h ⊢
          rcases find_spaces_items_seen_to_space v rest depth _ hv h with h2 | h2
          · rcases find_spaces_seen_to_space v (.arr ys) (depth + 1) _ hv h2 with h3 | h3
            · rcases recordSpace_seen_cases (scanItem ys) st v hv (scanItem_typeInv ys) h3
                with h4 | ⟨nm, h4⟩
              · exact Or.inl h4
              · right
                refine ⟨nm, ?_⟩
                have h5 := (find_spaces_mono (.arr ys) (depth + 1) _).2 _ h4
                exact (find_spaces_items_mono rest depth _).2 _ h5
            · rcases h3 with ⟨nm, h3⟩
              right
              refine ⟨nm, ?_⟩
              exact (find_spaces_items_mono rest depth _).2 _ h3
          · exact Or.inr h2

end

/-- C1 (amended): if a string leaf `s` of length 11 with prefix `"AAAA"`
occurs as a direct element of an array node `A` located at nesting depth
1 ≤ d ≤ 26 of the response tree, every candidate identifier string in `A`'s
subtree equals `s`, and `s` is not among the already-seen ids, then the
space-extraction pass records `s` as a Space identifier of Room kind
(`type = "space"`). -/
theorem claim_C1_amended (data : PB) (spaces0 : List SpaceRec) (seen0 : List String)
    (s : String) (A : List PB) (d : Nat)
    (hat : ArrAt A data d) (hd1 : 1 ≤ d) (hd26 : d ≤ 26)
    (hmem : PB.str s ∈ A) (hspace : isSpaceIdStr s = true)
    (huniq : OnlyCandIn s (.arr A)) (hseen : s ∉ seen0) :
    ∃ nm, SpaceRec.mk s nm "space" ∈ (extract_spaces_from_pblite data spaces0 seen0).spaces := by
  have hscan : (scanItem A).space_id = some s := scanItem_id_of_mem s A hspace hmem huniq
  have hreach : s ∈ (find_spaces data 0 ⟨spaces0, seen0⟩).seen :=
    find_spaces_reaches s data 0 ⟨spaces0, seen0⟩ A d hat hd1 (by omega) hscan
  rcases find_spaces_seen_to_space s data 0 ⟨spaces0, seen0⟩ hspace hreach with hin | hgood
  · exact absurd hin hseen
  · exact hgood

/-- Counterexample to C1 as stated: the response `["AAAAHKvY2CQ"]` contains
a string leaf of length 11 with prefix `"AAAA"` at depth 1 (far below the
recursion bound), yet the extraction pass records nothing at all — string
elements of the outermost response list are never pattern-checked. -/
theorem claim_C1_counterexample :
    isSpaceIdStr "AAAAHKvY2CQ" = true ∧
    StrAt "AAAAHKvY2CQ" (.arr [.str "AAAAHKvY2CQ"]) 1 ∧
    (extract_spaces_from_pblite (.arr [.str "AAAAHKvY2CQ"]) [] []).spaces = [] :=
  ⟨by decide, StrAt.there (List.mem_singleton.mpr rfl) (StrAt.here "AAAAHKvY2CQ"), rfl⟩

/-- Witness for the amended C1: in `[["AAAAHKvY2CQ"]]` the identifier sits
as a direct element of an inner list at depth 1 and is recorded as a Room
(`"space"`) kind space. -/
theorem claim_C1_witness :
    ∃ nm, SpaceRec.mk "AAAAHKvY2CQ" nm "space" ∈
      (extract_spaces_from_pblite (.arr [.arr [.str "AAAAHKvY2CQ"]]) [] []).spaces := by
  refine claim_C1_amended (.arr [.arr [.str "AAAAHKvY2CQ"]]) [] [] "AAAAHKvY2CQ"
    [.str "AAAAHKvY2CQ"] 1
    (ArrAt.there (List.mem_singleton.mpr rfl) (ArrAt.here _))
    (by decide) (by decide) (List.mem_singleton.mpr rfl) (by decide) ?_ (by simp)
  intro t dt h hc
  cases h with
  | there hx h2 =>
      rw [List.mem_singleton] at hx
      subst hx
      cases h2
      rfl
